import Mathlib

/-!
Shallow embedding of the scheduling core of the horse-scraper repository
(app/scheduler_refresh.py, app/scrapers/daily.py, app/models.py) and proofs
about it.  Instants are modelled as integer minutes since an arbitrary epoch;
the safety buffer is 3 minutes, the assumed action duration 10 minutes and the
planning horizon 24 hours = 1440 minutes, exactly as in the source.
-/

namespace HorseScraper

/-- A stored event start time.  The repository stores race times either with an
explicit offset (timezone-aware, here normalised to the UTC instant it denotes)
or as a bare wall-clock value without offset (naive), which the code has to
resolve before using. -/
inductive RaceTime where
  | aware (utc : Int)
  | naive (wall : Int)
deriving DecidableEq, Repr

/-- The value a stored time presents to the database layer when it is compared
without any timezone resolution: an aware time denotes its instant, a naive
time is just its wall-clock number. -/
def rawVal : RaceTime → Int
  | .aware u => u
  | .naive w => w

/-- Resolution as written in find_next_safe_refresh_time: a naive value is
interpreted in the fixed source-venue timezone (Europe/Paris, offset
parisOff minutes ahead of UTC) and converted to UTC; an aware value is
converted to UTC, which keeps its instant. -/
def resolveUtc (parisOff : Int) : RaceTime → Int
  | .aware u => u
  | .naive w => w - parisOff

/-- Resolution as written in _schedule_per_race_jobs, which calls
astimezone(timezone.utc) directly: an aware value keeps its instant, but a
naive value is interpreted in the local timezone of the process (offset sysOff
minutes ahead of UTC), not in Europe/Paris. -/
def astimezoneUtc (sysOff : Int) : RaceTime → Int
  | .aware u => u
  | .naive w => w - sysOff

/-- The WHERE clause of the selection query of the planner: the stored value is
compared directly against now and now + 24h, with no timezone resolution. -/
def selectPred (now : Int) (t : RaceTime) : Bool :=
  decide (now < rawVal t) && decide (rawVal t ≤ now + 1440)

/-- The selection predicate demanded by the spec: the event time is resolved
to UTC via the fixed source-venue timezone before every comparison. -/
def specSelect (parisOff now : Int) (t : RaceTime) : Bool :=
  decide (now < resolveUtc parisOff t) && decide (resolveUtc parisOff t ≤ now + 1440)

/-- The fallback instant of the planner: now with hour replaced by 1 and the
minutes cleared, plus one day, i.e. the next day at 01:00 UTC. -/
def tomorrow01 (now : Int) : Int :=
  Int.fdiv now 1440 * 1440 + 60 + 1440

/-- The for-loop of find_next_safe_refresh_time over the selected races: the
busy end of each race is its resolved start plus 10 minutes; if a race is followed by
another one, the walk stops at it when the gap to the next resolved start is at
least the 3-minute buffer, and the last race always stops the walk. -/
def walkLoop (parisOff : Int) : List RaceTime → Option Int
  | [] => none
  | [t] => some (resolveUtc parisOff t + 10)
  | t :: t' :: rest =>
      if (3 : Int) ≤ resolveUtc parisOff t' - (resolveUtc parisOff t + 10) then
        some (resolveUtc parisOff t + 10)
      else
        walkLoop parisOff (t' :: rest)

/-- The body of find_next_safe_refresh_time after the upcoming races have been
selected: none (safe now) when the selection is empty or the
resolved start of the first selected race exceeds now + 3 minutes; otherwise
the busy end chosen by the walk, falling back to the next day at 01:00 UTC when the walk returns
nothing. -/
def afterSelect (parisOff now : Int) : List RaceTime → Option Int
  | [] => none
  | t :: rest =>
      if now + 3 < resolveUtc parisOff t then none
      else some ((walkLoop parisOff (t :: rest)).getD (tomorrow01 now))

/-- find_next_safe_refresh_time (app/scheduler_refresh.py): select the stored
races whose raw value lies in (now, now + 24h], ordered by raw value, then run
the safe-window logic on the selected list. -/
def find_next_safe_refresh_time (parisOff now : Int) (db : List RaceTime) : Option Int :=
  afterSelect parisOff now
    ((db.filter (selectPred now)).insertionSort (fun a b => rawVal a ≤ rawVal b))

/-- Modelled from the spec (section 4.2 step 3): walk the sorted start times;
for event i the busy end is start + actionDuration; the last event returns its
busy end, and otherwise the walk stops at the first event whose gap to the next
start is at least the safety buffer. -/
def specWalk : List Int → Option Int
  | [] => none
  | [s] => some (s + 10)
  | s :: s' :: rest =>
      if (3 : Int) ≤ s' - (s + 10) then some (s + 10)
      else specWalk (s' :: rest)

/-- Modelled from the spec (section 4.2): nextSafeInstant over the sorted list
of UTC start times within the horizon; safe now when the list is empty or the
earliest start is later than now + safetyBuffer, otherwise the answer of the walk,
with the next day at 01:00 UTC as the no-qualifying-gap fallback. -/
def specNextSafeInstant (now : Int) (starts : List Int) : Option Int :=
  match starts with
  | [] => none
  | s :: _ =>
      if now + 3 < s then none
      else some ((specWalk starts).getD (tomorrow01 now))

/-- Modelled from the spec (section 4.2 step 1): load the events whose
resolved UTC start lies in (now, now + horizon], sorted ascending by that
resolved start; every stored time is resolved via the fixed source-venue
timezone before any comparison. -/
def specLoad (parisOff now : Int) (db : List RaceTime) : List Int :=
  ((db.map (resolveUtc parisOff)).filter
      (fun s => decide (now < s) && decide (s ≤ now + 1440))).insertionSort (· ≤ ·)

/-- Modelled from the spec (section 4.2): the full reference pipeline
nextSafeInstant over the stored event set: load by resolved UTC start, then
apply the reference walk. -/
def specNextSafe (parisOff now : Int) (db : List RaceTime) : Option Int :=
  specNextSafeInstant now (specLoad parisOff now db)

theorem walkLoop_map_aware (parisOff : Int) :
    ∀ l : List Int, walkLoop parisOff (l.map RaceTime.aware) = specWalk l
  | [] => rfl
  | [s] => by simp [walkLoop, specWalk, resolveUtc]
  | s :: s' :: rest => by
      by_cases h : (3 : Int) ≤ s' - (s + 10)
      · simp [walkLoop, specWalk, resolveUtc, h]
      · simp only [List.map_cons, walkLoop, specWalk, resolveUtc, h, if_neg h]
        simpa using walkLoop_map_aware parisOff (s' :: rest)

/-- Claim C1 amended: for every set of stored events whose start times carry
an explicit offset, with starts in (now, now + 24h] sorted ascending,
find_next_safe_refresh_time coincides with the reference algorithm of the spec
nextSafeInstant: safe now when the list is empty or the earliest start exceeds
now + 3 minutes, otherwise the busy end (start + 10 minutes) of the first
event that is last or whose gap to the next start is at least 3 minutes, with
the next day at 01:00 UTC as fallback; for naive stored times the two
algorithms differ, since the code selects and orders by the unresolved
wall-clock value while the reference loads by resolved UTC start. -/
theorem C1_planner_matches_spec (parisOff now : Int) (starts : List Int)
    (hs : List.Sorted (· ≤ ·) starts)
    (hw : ∀ s ∈ starts, now < s ∧ s ≤ now + 1440) :
    find_next_safe_refresh_time parisOff now (starts.map RaceTime.aware)
      = specNextSafeInstant now starts := by
  have hfil : (starts.map RaceTime.aware).filter (selectPred now)
      = starts.map RaceTime.aware := by
    refine List.filter_eq_self.mpr ?_
    intro t ht
    obtain ⟨s, hs', rfl⟩ := List.mem_map.mp ht
    simp only [selectPred, rawVal, Bool.and_eq_true, decide_eq_true_eq]
    exact ⟨(hw s hs').1, (hw s hs').2⟩
  have hsort : (starts.map RaceTime.aware).Sorted (fun a b => rawVal a ≤ rawVal b) :=
    List.pairwise_map.mpr (by simpa [rawVal] using hs)
  unfold find_next_safe_refresh_time
  rw [hfil, List.Sorted.insertionSort_eq hsort]
  cases starts with
  | nil => rfl
  | cons s rest =>
      simp only [List.map_cons, afterSelect, specNextSafeInstant, resolveUtc]
      rw [show RaceTime.aware s :: rest.map RaceTime.aware
            = (s :: rest).map RaceTime.aware from rfl,
          walkLoop_map_aware parisOff (s :: rest)]

theorem C1_witness :
    find_next_safe_refresh_time 120 0 ([1, 90].map RaceTime.aware) = some 11 := by
  rw [C1_planner_matches_spec 120 0 [1, 90] (by decide) (by decide)]
  decide

/-- Claim C1 counterexample: the stored event set is not restricted to
offset-carrying times, and on a naive stored time the code and the reference
algorithm of the spec disagree: with the Paris offset at 120 minutes and
now = 0, the single stored naive wall-clock value 60 passes the raw selection
of the code (its unresolved value lies in the window) and the code returns the
past busy end -50, while the reference pipeline resolves it to the UTC start
-60, loads no event from the window, and returns safe now (none). -/
theorem C1_counterexample :
    find_next_safe_refresh_time 120 0 [RaceTime.naive 60] = some (-50)
      ∧ specNextSafe 120 0 [RaceTime.naive 60] = none := by
  refine ⟨by decide, by decide⟩

theorem walkLoop_mem (parisOff : Int) :
    ∀ (l : List RaceTime) (v : Int), walkLoop parisOff l = some v →
      ∃ t ∈ l, v = resolveUtc parisOff t + 10
  | [], v, h => by simp [walkLoop] at h
  | [t], v, h => by
      simp only [walkLoop, Option.some.injEq] at h
      exact ⟨t, by simp, h.symm⟩
  | t :: t' :: rest, v, h => by
      by_cases hc : (3 : Int) ≤ resolveUtc parisOff t' - (resolveUtc parisOff t + 10)
      · simp only [walkLoop, if_pos hc, Option.some.injEq] at h
        exact ⟨t, by simp, h.symm⟩
      · simp only [walkLoop, if_neg hc] at h
        obtain ⟨u, hu, hv⟩ := walkLoop_mem parisOff (t' :: rest) v h
        exact ⟨u, List.mem_cons_of_mem t hu, hv⟩

theorem lt_tomorrow01 (now : Int) : now < tomorrow01 now := by
  unfold tomorrow01
  rw [Int.fdiv_eq_ediv now (by norm_num)]
  omega

/-- Claim C10 counterexample: with the Paris offset at 120 minutes and now = 0,
a single stored naive race time 60 passes the raw selection filter but resolves
to the past, and the planner returns the instant -50, which is not later than
now; so a non-none result of find_next_safe_refresh_time can lie in the
past. -/
theorem C10_counterexample :
    find_next_safe_refresh_time 120 0 [RaceTime.naive 60] = some (-50)
      ∧ ¬ ((0 : Int) < -50) := by
  constructor
  · decide
  · decide

/-- Claim C10 amended: when every stored race time carries an explicit offset
(is timezone-aware), every non-none result of find_next_safe_refresh_time is
strictly later than now; with naive stored times the selection filter compares
the unresolved value, and a resolved-in-the-past race can make the returned
busy end lie at or before now. -/
theorem C10_result_future (parisOff now : Int) (l : List Int) (r : Int)
    (h : find_next_safe_refresh_time parisOff now (l.map RaceTime.aware) = some r) :
    now < r := by
  unfold find_next_safe_refresh_time at h
  have hmem : ∀ t ∈ ((l.map RaceTime.aware).filter (selectPred now)).insertionSort
      (fun a b => rawVal a ≤ rawVal b), ∃ u, t = RaceTime.aware u ∧ now < u := by
    intro t ht
    have ht' : t ∈ (l.map RaceTime.aware).filter (selectPred now) :=
      (List.mem_insertionSort _).mp ht
    have ht2 := List.mem_filter.mp ht'
    obtain ⟨u, _, rfl⟩ := List.mem_map.mp ht2.1
    refine ⟨u, rfl, ?_⟩
    have hp := ht2.2
    simp only [selectPred, rawVal, Bool.and_eq_true, decide_eq_true_eq] at hp
    exact hp.1
  revert h hmem
  cases hupc : ((l.map RaceTime.aware).filter (selectPred now)).insertionSort
      (fun a b => rawVal a ≤ rawVal b) with
  | nil => intro h hmem; simp [afterSelect] at h
  | cons t rest =>
      intro h hmem
      by_cases hcond : now + 3 < resolveUtc parisOff t
      · simp [afterSelect, if_pos hcond] at h
      · simp only [afterSelect, if_neg hcond, Option.some.injEq] at h
        cases hw : walkLoop parisOff (t :: rest) with
        | none =>
            rw [hw] at h
            simp only [Option.getD_none] at h
            exact h ▸ lt_tomorrow01 now
        | some v =>
            rw [hw] at h
            simp only [Option.getD_some] at h
            obtain ⟨t', ht', hv⟩ := walkLoop_mem parisOff (t :: rest) v hw
            obtain ⟨u, rfl, hu⟩ := hmem t' ht'
            rw [← h, hv]
            simp only [resolveUtc]
            linarith

theorem C10_witness :
    (0 : Int) < 12 ∧ find_next_safe_refresh_time 0 0 ([2].map RaceTime.aware) = some 12 :=
  ⟨C10_result_future 0 0 [2] 12 (by decide), by decide⟩

/-- The run time computed by _schedule_per_race_jobs (app/scrapers/daily.py):
race_time.astimezone(timezone.utc) minus the 3-minute lead. -/
def runTimeUtc (sysOff : Int) (t : RaceTime) : Int :=
  astimezoneUtc sysOff t - 3

/-- Modelled from the spec (section 4.1): fireAt = toUtc(event.startTime) -
leadTime, with a naive start time resolved via the fixed source-venue timezone
(Europe/Paris) and a 3-minute lead. -/
def specFireAt (parisOff : Int) (t : RaceTime) : Int :=
  resolveUtc parisOff t - 3

/-- Claim C3 counterexample: with the Paris offset at 120 minutes, the system
timezone at UTC and now = 0, the naive stored time 60 is treated as upcoming by
the unresolved selection comparison of the planner although its uniformly resolved
value is in the past, and the per-event fire-time computation resolves it via
the system timezone instead of Europe/Paris; so event-time comparisons are not
uniformly performed on values resolved via the source-venue timezone. -/
theorem C3_counterexample :
    selectPred 0 (RaceTime.naive 60) = true
      ∧ specSelect 120 0 (RaceTime.naive 60) = false
      ∧ runTimeUtc 0 (RaceTime.naive 60) ≠ specFireAt 120 (RaceTime.naive 60) := by
  refine ⟨by decide, by decide, by decide⟩

/-- Claim C3 amended: for event times carrying an explicit offset every
comparison is performed on the UTC instant, and the selection of the planner, the
walk and the fire-time computation all agree with the uniformly resolved
values; a naive event time, however, is compared unresolved by the selection
query of the planner and resolved via the local timezone of the process (not
Europe/Paris) by the fire-time computation. -/
theorem C3_aware_uniform (parisOff sysOff now u : Int) :
    selectPred now (RaceTime.aware u) = specSelect parisOff now (RaceTime.aware u)
      ∧ astimezoneUtc sysOff (RaceTime.aware u) = resolveUtc parisOff (RaceTime.aware u)
      ∧ runTimeUtc sysOff (RaceTime.aware u) = specFireAt parisOff (RaceTime.aware u) := by
  refine ⟨?_, rfl, rfl⟩
  simp [selectPred, specSelect, rawVal, resolveUtc]

/-- An event row as stored by the repository (app/models.py): its database id,
its natural key unibet_id, and its stored start time, which stands for all the
mutable scraped fields. -/
structure Race where
  id : Nat
  unibet_id : String
  race_time : RaceTime
deriving DecidableEq, Repr

/-- The deterministic job id used by _schedule_per_race_jobs. -/
def jobId (r : Race) : String :=
  "race_" ++ toString r.id

/-- The function _schedule_per_race_jobs (app/scrapers/daily.py): walk the race list and,
for every race whose run time (3 minutes before its start, resolved by
astimezone) is still in the future and whose deterministic job id is not yet
registered, add the job id to the registry; stale races and races whose id is
already present are skipped. -/
def schedJobs (sysOff now : Int) : List String → List Race → List String
  | reg, [] => reg
  | reg, r :: rs =>
      if runTimeUtc sysOff r.race_time ≤ now then
        schedJobs sysOff now reg rs
      else if jobId r ∈ reg then
        schedJobs sysOff now reg rs
      else
        schedJobs sysOff now (jobId r :: reg) rs

/-- The function _schedule_per_race_jobs with a fallible registration step: when adding a
job raises, the exception propagates out of the loop, leaving the registry as
accumulated so far; there is no per-event handler in the source. -/
def schedJobsE (sysOff now : Int) (fails : Race → Bool) :
    List String → List Race → Except (List String) (List String)
  | reg, [] => .ok reg
  | reg, r :: rs =>
      if runTimeUtc sysOff r.race_time ≤ now then
        schedJobsE sysOff now fails reg rs
      else if jobId r ∈ reg then
        schedJobsE sysOff now fails reg rs
      else if fails r then
        .error reg
      else
        schedJobsE sysOff now fails (jobId r :: reg) rs

/-- Number of occurrences of a job id in the registry. -/
def occ (a : String) (l : List String) : Nat :=
  (l.filter (fun x => decide (x = a))).length

theorem mem_schedJobs_mono (sysOff now : Int) (a : String) :
    ∀ (races : List Race) (reg : List String), a ∈ reg → a ∈ schedJobs sysOff now reg races
  | [], _, h => h
  | r :: rs, reg, h => by
      unfold schedJobs
      by_cases h1 : runTimeUtc sysOff r.race_time ≤ now
      · simpa [if_pos h1] using mem_schedJobs_mono sysOff now a rs reg h
      · by_cases h2 : jobId r ∈ reg
        · simpa [if_neg h1, if_pos h2] using mem_schedJobs_mono sysOff now a rs reg h
        · simpa [if_neg h1, if_neg h2] using
            mem_schedJobs_mono sysOff now a rs (jobId r :: reg) (List.mem_cons_of_mem _ h)

theorem schedJobs_covers (sysOff now : Int) :
    ∀ (races : List Race) (reg : List String) (r : Race), r ∈ races →
      ¬ runTimeUtc sysOff r.race_time ≤ now → jobId r ∈ schedJobs sysOff now reg races
  | [], _, _, hmem, _ => absurd hmem (List.not_mem_nil _)
  | r0 :: rs, reg, r, hmem, hfresh => by
      unfold schedJobs
      rcases List.mem_cons.mp hmem with heq | htail
      · subst heq
        rw [if_neg hfresh]
        by_cases h2 : jobId r ∈ reg
        · rw [if_pos h2]; exact mem_schedJobs_mono sysOff now _ rs reg h2
        · rw [if_neg h2]
          exact mem_schedJobs_mono sysOff now _ rs (jobId r :: reg) (List.mem_cons_self _ _)
      · by_cases h1 : runTimeUtc sysOff r0.race_time ≤ now
        · rw [if_pos h1]; exact schedJobs_covers sysOff now rs reg r htail hfresh
        · rw [if_neg h1]
          by_cases h2 : jobId r0 ∈ reg
          · rw [if_pos h2]; exact schedJobs_covers sysOff now rs reg r htail hfresh
          · rw [if_neg h2]; exact schedJobs_covers sysOff now rs (jobId r0 :: reg) r htail hfresh

theorem schedJobs_eq_of_covered (sysOff now : Int) :
    ∀ (races : List Race) (reg : List String),
      (∀ r ∈ races, runTimeUtc sysOff r.race_time ≤ now ∨ jobId r ∈ reg) →
      schedJobs sysOff now reg races = reg
  | [], _, _ => rfl
  | r :: rs, reg, h => by
      unfold schedJobs
      rcases h r (List.mem_cons_self _ _) with h1 | h2
      · rw [if_pos h1]
        exact schedJobs_eq_of_covered sysOff now rs reg
          (fun r' hr' => h r' (List.mem_cons_of_mem _ hr'))
      · by_cases h1 : runTimeUtc sysOff r.race_time ≤ now
        · rw [if_pos h1]
          exact schedJobs_eq_of_covered sysOff now rs reg
            (fun r' hr' => h r' (List.mem_cons_of_mem _ hr'))
        · rw [if_neg h1, if_pos h2]
          exact schedJobs_eq_of_covered sysOff now rs reg
            (fun r' hr' => h r' (List.mem_cons_of_mem _ hr'))

theorem mem_schedJobs_cases (sysOff now : Int) :
    ∀ (races : List Race) (reg : List String) (a : String),
      a ∈ schedJobs sysOff now reg races →
      a ∈ reg ∨ ∃ r, r ∈ races ∧ a = jobId r ∧ ¬ runTimeUtc sysOff r.race_time ≤ now
  | [], _, _, h => Or.inl h
  | r :: rs, reg, a, h => by
      unfold schedJobs at h
      by_cases h1 : runTimeUtc sysOff r.race_time ≤ now
      · rw [if_pos h1] at h
        rcases mem_schedJobs_cases sysOff now rs reg a h with h' | ⟨r', hr', he, hf⟩
        · exact Or.inl h'
        · exact Or.inr ⟨r', List.mem_cons_of_mem _ hr', he, hf⟩
      · rw [if_neg h1] at h
        by_cases h2 : jobId r ∈ reg
        · rw [if_pos h2] at h
          rcases mem_schedJobs_cases sysOff now rs reg a h with h' | ⟨r', hr', he, hf⟩
          · exact Or.inl h'
          · exact Or.inr ⟨r', List.mem_cons_of_mem _ hr', he, hf⟩
        · rw [if_neg h2] at h
          rcases mem_schedJobs_cases sysOff now rs (jobId r :: reg) a h with h' | ⟨r', hr', he, hf⟩
          · rcases List.mem_cons.mp h' with he' | h''
            · exact Or.inr ⟨r, List.mem_cons_self _ _, he', h1⟩
            · exact Or.inl h''
          · exact Or.inr ⟨r', List.mem_cons_of_mem _ hr', he, hf⟩

theorem occ_cons (a b : String) (l : List String) :
    occ a (b :: l) = occ a l + (if b = a then 1 else 0) := by
  unfold occ
  by_cases h : b = a
  · simp [List.filter_cons, h]
  · simp [List.filter_cons, h]

theorem occ_le_max (sysOff now : Int) :
    ∀ (races : List Race) (reg : List String) (a : String),
      occ a (schedJobs sysOff now reg races) ≤ max (occ a reg) 1
  | [], reg, a => le_max_left _ _
  | r :: rs, reg, a => by
      unfold schedJobs
      by_cases h1 : runTimeUtc sysOff r.race_time ≤ now
      · rw [if_pos h1]; exact occ_le_max sysOff now rs reg a
      · rw [if_neg h1]
        by_cases h2 : jobId r ∈ reg
        · rw [if_pos h2]; exact occ_le_max sysOff now rs reg a
        · rw [if_neg h2]
          refine le_trans (occ_le_max sysOff now rs (jobId r :: reg) a) ?_
          rw [occ_cons]
          by_cases h3 : jobId r = a
          · have hz : occ a reg = 0 := by
              unfold occ
              rw [List.length_eq_zero]
              refine List.filter_eq_nil_iff.mpr ?_
              intro x hx
              simp only [decide_eq_true_eq]
              intro he
              exact h2 (h3 ▸ he ▸ hx)
            simp [h3, hz]
          · simp [h3]

/-- Claim C4: scheduling is idempotent: running _schedule_per_race_jobs a
second time over the same race list leaves the registry unchanged, since every
event is skipped either as stale or because its deterministic job id already
exists; and no job id ever occurs more than once in the registry. -/
theorem C4_sched_idempotent (sysOff now : Int) (reg : List String) (races : List Race)
    (a : String) :
    schedJobs sysOff now (schedJobs sysOff now reg races) races
        = schedJobs sysOff now reg races
      ∧ occ a (schedJobs sysOff now reg races) ≤ max (occ a reg) 1 := by
  constructor
  · apply schedJobs_eq_of_covered
    intro r hr
    by_cases h1 : runTimeUtc sysOff r.race_time ≤ now
    · exact Or.inl h1
    · exact Or.inr (schedJobs_covers sysOff now races reg r hr h1)
  · exact occ_le_max sysOff now races reg a

/-- Claim C5: an event whose run time (3 minutes before its start) is at or
before now is skipped by _schedule_per_race_jobs without error: its job id is
registered afterwards only if it was registered before (provided every event
carrying the same job id is also stale), and every non-stale event of the list
is still processed and registered. -/
theorem C5_stale_skipped (sysOff now : Int) (reg : List String) (races : List Race)
    (r : Race) (hmem : r ∈ races) (hstale : runTimeUtc sysOff r.race_time ≤ now)
    (hall : ∀ r' ∈ races, jobId r' = jobId r → runTimeUtc sysOff r'.race_time ≤ now) :
    (jobId r ∈ schedJobs sysOff now reg races ↔ jobId r ∈ reg)
      ∧ ∀ r' ∈ races, ¬ runTimeUtc sysOff r'.race_time ≤ now →
          jobId r' ∈ schedJobs sysOff now reg races := by
  refine ⟨⟨?_, mem_schedJobs_mono sysOff now _ races reg⟩, ?_⟩
  · intro h
    rcases mem_schedJobs_cases sysOff now races reg _ h with h' | ⟨r', hr', he, hf⟩
    · exact h'
    · exact absurd (hall r' hr' he.symm) hf
  · intro r' hr' hf
    exact schedJobs_covers sysOff now races reg r' hr' hf

theorem C5_witness :
    (jobId ⟨1, "u1", RaceTime.aware 2⟩
        ∉ schedJobs 0 0 [] [⟨1, "u1", RaceTime.aware 2⟩, ⟨2, "u2", RaceTime.aware 100⟩])
      ∧ jobId ⟨2, "u2", RaceTime.aware 100⟩
        ∈ schedJobs 0 0 [] [⟨1, "u1", RaceTime.aware 2⟩, ⟨2, "u2", RaceTime.aware 100⟩] := by
  have h := C5_stale_skipped 0 0 [] [⟨1, "u1", RaceTime.aware 2⟩, ⟨2, "u2", RaceTime.aware 100⟩]
    ⟨1, "u1", RaceTime.aware 2⟩ (by decide) (by decide) (by decide)
  exact ⟨fun hx => (List.not_mem_nil _) (h.1.mp hx),
    h.2 ⟨2, "u2", RaceTime.aware 100⟩ (by decide) (by decide)⟩

/-- Claim C7 counterexample: with a registration step that raises for the race
with id 1, _schedule_per_race_jobs over the two fresh races 1 and 2 stops with
the error before reaching race 2, whose job is therefore never registered; a
registration failure is not isolated and the remaining events are not
processed. -/
theorem C7_counterexample :
    schedJobsE 0 0 (fun r => decide (r.id = 1)) []
        [⟨1, "u1", RaceTime.aware 100⟩, ⟨2, "u2", RaceTime.aware 200⟩] = .error []
      ∧ jobId ⟨2, "u2", RaceTime.aware 200⟩ ∉ ([] : List String) := by
  refine ⟨rfl, by decide⟩

/-- Claim C7 amended: a registration failure for one event is not isolated:
when the loop reaches an event that is fresh, unregistered and whose
registration raises, _schedule_per_race_jobs stops with that exception, the
events after it in the list are not processed, and the registry keeps exactly
the jobs accumulated so far. -/
theorem C7_failure_aborts (sysOff now : Int) (fails : Race → Bool) :
    ∀ (pre : List Race) (reg reg' : List String) (r : Race) (post : List Race),
      schedJobsE sysOff now fails reg pre = .ok reg' →
      ¬ runTimeUtc sysOff r.race_time ≤ now →
      jobId r ∉ reg' →
      fails r = true →
      schedJobsE sysOff now fails reg (pre ++ r :: post) = .error reg'
  | [], reg, reg', r, post, hok, hfresh, habs, hfail => by
      simp only [schedJobsE, Except.ok.injEq] at hok
      subst hok
      simp only [List.nil_append, schedJobsE]
      rw [if_neg hfresh, if_neg habs, if_pos hfail]
  | r0 :: pre', reg, reg', r, post, hok, hfresh, habs, hfail => by
      simp only [schedJobsE] at hok
      simp only [List.cons_append, schedJobsE]
      by_cases h1 : runTimeUtc sysOff r0.race_time ≤ now
      · rw [if_pos h1] at hok ⊢
        exact C7_failure_aborts sysOff now fails pre' reg reg' r post hok hfresh habs hfail
      · rw [if_neg h1] at hok ⊢
        by_cases h2 : jobId r0 ∈ reg
        · rw [if_pos h2] at hok ⊢
          exact C7_failure_aborts sysOff now fails pre' reg reg' r post hok hfresh habs hfail
        · rw [if_neg h2] at hok ⊢
          by_cases h3 : fails r0 = true
          · rw [if_pos h3] at hok; cases hok
          · rw [if_neg h3] at hok ⊢
            exact C7_failure_aborts sysOff now fails pre' (jobId r0 :: reg) reg' r post
              hok hfresh habs hfail

theorem C7_witness :
    schedJobsE 0 0 (fun r => decide (r.id = 1)) ["x"]
        ([⟨3, "u3", RaceTime.aware 50⟩] ++ ⟨1, "u1", RaceTime.aware 100⟩ :: [])
      = .error ["race_3", "x"] :=
  C7_failure_aborts 0 0 (fun r => decide (r.id = 1)) [⟨3, "u3", RaceTime.aware 50⟩]
    ["x"] ["race_3", "x"] ⟨1, "u1", RaceTime.aware 100⟩ [] rfl (by decide) (by decide) (by decide)

/-- Job id of the immediate refresh trigger. -/
def immId : String := "db_refresh_immediate"

/-- Job id of the delayed refresh trigger. -/
def delId : String := "db_refresh_delayed"

/-- scheduler.add_job with replace_existing set: the entry under an already
present id is replaced, otherwise a new entry is created. -/
def addJobReplace (reg : List String) (i : String) : List String :=
  if i ∈ reg then reg else i :: reg

/-- schedule_next_refresh (app/scheduler_refresh.py): when the planner says
safe now, register the immediate refresh job under its fixed id, otherwise
register the delayed refresh job under its fixed id; no other job is touched.
The safeNow flag stands for find_next_safe_refresh_time returning none. -/
def schedule_next_refresh (reg : List String) (safeNow : Bool) : List String :=
  if safeNow then addJobReplace reg immId else addJobReplace reg delId

/-- scheduler.remove_job wrapped in try/except: drops the entry with the given
id if present, and is a no-op otherwise. -/
def removeJob (reg : List String) (i : String) : List String :=
  reg.filter (fun x => decide (x ≠ i))

/-- hourly_refresh_check (app/scheduler_refresh.py): remove both refresh job
ids, then schedule the next refresh. -/
def hourly_refresh_check (reg : List String) (safeNow : Bool) : List String :=
  schedule_next_refresh (removeJob (removeJob reg immId) delId) safeNow

/-- Number of live refresh triggers (immediate or delayed) in the registry. -/
def refreshCount (reg : List String) : Nat :=
  (reg.filter (fun x => decide (x = immId) || decide (x = delId))).length

/-- schedule_next_refresh with a fallible add_job step: the surrounding
try/except logs every exception, so the caller never sees one; the second
component records whether an exception reached the caller. -/
def schedule_next_refreshE (reg : List String) (safeNow addFails : Bool) :
    List String × Bool :=
  if addFails then (reg, false)
  else (schedule_next_refresh reg safeNow, false)

/-- Claim C2 counterexample: starting from a registry that already holds the
delayed refresh trigger, two schedule_next_refresh calls that both find the
planner safe leave two live refresh triggers, an immediate and a delayed one
coexisting; the second call does not cancel the opposite-purpose trigger. -/
theorem C2_counterexample :
    refreshCount (schedule_next_refresh (schedule_next_refresh [delId] true) true) = 2
      ∧ immId ∈ schedule_next_refresh (schedule_next_refresh [delId] true) true
      ∧ delId ∈ schedule_next_refresh (schedule_next_refresh [delId] true) true := by
  refine ⟨by decide, by decide, by decide⟩

theorem mem_removeJob (reg : List String) (i j : String) :
    j ∈ removeJob reg i ↔ j ∈ reg ∧ j ≠ i := by
  unfold removeJob
  simp [List.mem_filter]

theorem refreshCount_snr_eq_one (reg : List String) (b : Bool)
    (h1 : immId ∉ reg) (h2 : delId ∉ reg) :
    refreshCount (schedule_next_refresh reg b) = 1 := by
  have hz : (reg.filter (fun x => decide (x = immId) || decide (x = delId))).length = 0 := by
    rw [List.length_eq_zero]
    refine List.filter_eq_nil_iff.mpr ?_
    intro x hx
    simp only [Bool.or_eq_true, decide_eq_true_eq]
    rintro (rfl | rfl)
    · exact h1 hx
    · exact h2 hx
  cases b with
  | true =>
      rw [show schedule_next_refresh reg true = immId :: reg from by
        simp [schedule_next_refresh, addJobReplace, h1]]
      unfold refreshCount
      simp only [List.filter_cons]
      norm_num [hz]
  | false =>
      rw [show schedule_next_refresh reg false = delId :: reg from by
        simp [schedule_next_refresh, addJobReplace, h2]]
      unfold refreshCount
      simp only [List.filter_cons]
      have : (decide (delId = immId) || decide (delId = delId)) = true := by decide
      norm_num [hz, this]

theorem refreshCount_hourly (reg : List String) (b : Bool) :
    refreshCount (hourly_refresh_check reg b) = 1 := by
  unfold hourly_refresh_check
  apply refreshCount_snr_eq_one
  · intro h
    exact ((mem_removeJob _ _ _).mp ((mem_removeJob _ _ _).mp h).1).2 rfl
  · intro h
    exact ((mem_removeJob _ _ _).mp h).2 rfl

theorem addJobReplace_idem (reg : List String) (i : String) :
    addJobReplace (addJobReplace reg i) i = addJobReplace reg i := by
  unfold addJobReplace
  by_cases h : i ∈ reg
  · simp [h]
  · simp [h]

/-- Claim C2 amended: the de-duplication holds for the paths that the code
actually guards: a repeated schedule_next_refresh call that takes the same
planner branch is a no-op (replace_existing supersedes the same id), and two
hourly_refresh_check runs leave exactly one live refresh trigger because the
check removes both refresh ids before rescheduling; schedule_next_refresh
alone, however, never cancels the opposite-purpose trigger, so two
requestRefresh calls can leave an immediate and a delayed trigger
coexisting. -/
theorem C2_dedup_amended (reg : List String) (b1 b2 : Bool) :
    refreshCount (hourly_refresh_check (hourly_refresh_check reg b1) b2) = 1
      ∧ schedule_next_refresh (schedule_next_refresh reg b1) b1
          = schedule_next_refresh reg b1 := by
  constructor
  · exact refreshCount_hourly _ b2
  · cases b1 with
    | true => exact addJobReplace_idem reg immId
    | false => exact addJobReplace_idem reg delId

/-- Claim C8 counterexample: when the add operation on the trigger registry
fails inside schedule_next_refresh, the surrounding handler swallows the
exception and the call returns normally with the registry unchanged; the
persistence failure is not propagated to the caller of requestRefresh. -/
theorem C8_counterexample :
    schedule_next_refreshE [] true true = ([], false) := rfl

/-- Claim C8 amended: a persistence failure of the trigger registry propagates
as a hard failure out of _schedule_per_race_jobs (the loop stops with the
error), but schedule_next_refresh, and hence trigger_manual_refresh, catches
every exception and logs it, so the failure never reaches their caller. -/
theorem C8_propagation (sysOff now : Int) (fails : Race → Bool) (reg reg0 : List String)
    (b f : Bool) (r : Race) (rs : List Race)
    (hfresh : ¬ runTimeUtc sysOff r.race_time ≤ now)
    (habs : jobId r ∉ reg0) (hfail : fails r = true) :
    (schedule_next_refreshE reg b f).2 = false
      ∧ schedJobsE sysOff now fails reg0 (r :: rs) = .error reg0 := by
  constructor
  · unfold schedule_next_refreshE
    cases f <;> simp
  · simp only [schedJobsE]
    rw [if_neg hfresh, if_neg habs, if_pos hfail]

theorem C8_witness :
    (schedule_next_refreshE [] true true).2 = false
      ∧ schedJobsE 0 0 (fun r => decide (r.id = 1)) []
          [⟨1, "u1", RaceTime.aware 100⟩] = .error [] :=
  C8_propagation 0 0 (fun r => decide (r.id = 1)) [] [] true true
    ⟨1, "u1", RaceTime.aware 100⟩ [] (by decide) (by decide) (by decide)

/-- Scrape-log status values (app/models.py ScrapeLog.status). -/
inductive RunStatus where
  | ok
  | error
deriving DecidableEq, Repr

/-- A scrape-log row as appended by run_daily_scrape. -/
structure RunRecord where
  job_type : String
  status : RunStatus
deriving DecidableEq, Repr

/-- run_daily_scrape (app/scrapers/daily.py) as its observable effect on the
scrape log: launching the browser itself happens before the try/finally, so a
browser-launch failure raises with no record; everything after it - opening
the page, navigating, extracting, upserting and rescheduling - runs inside the
try, so an exception there is caught and recorded as status error; the finally
block persists the single record unless the log write itself raises, in which
case the exception escapes with no record.  The second component says whether
an exception reaches the caller. -/
def run_daily_scrape (launchFails bodyFails logWriteFails : Bool) :
    List RunRecord × Bool :=
  if launchFails then ([], true)
  else if logWriteFails then ([], true)
  else ([⟨"daily", if bodyFails then RunStatus.error else RunStatus.ok⟩], false)

/-- clear_db_and_refresh (app/scheduler_refresh.py): wipe the tables, then run
the daily scrape; the surrounding handler catches every exception, so nothing
propagates to the scheduling loop; a wipe failure skips the scrape entirely and
writes nothing. -/
def clear_db_and_refresh (wipeFails launchFails bodyFails logWriteFails : Bool) :
    List RunRecord × Bool :=
  if wipeFails then ([], false)
  else ((run_daily_scrape launchFails bodyFails logWriteFails).1, false)

/-- Claim C6 counterexample: when the wipe step raises, clear_db_and_refresh
catches the exception but appends no maintenance-run record at all, not one
with status error; the record count for that invocation is 0, not 1. -/
theorem C6_counterexample :
    clear_db_and_refresh true false false false = ([], false)
      ∧ (clear_db_and_refresh true false false false).1.length ≠ 1 := by
  exact ⟨rfl, by decide⟩

/-- Claim C6 amended: clear_db_and_refresh never propagates an exception, and
appends at most one run record: exactly one - with status error when the scrape
body (opening the page, navigating, extracting, upserting, rescheduling)
failed and ok otherwise - when the wipe, the browser launch and the final log
write all succeed, and zero records when the wipe, the browser launch or the
log write raises. -/
theorem C6_log_behavior (w l b lw : Bool) :
    (clear_db_and_refresh w l b lw).2 = false
      ∧ (clear_db_and_refresh w l b lw).1
          = (if w || l || lw then []
             else [⟨"daily", if b then RunStatus.error else RunStatus.ok⟩]) := by
  cases w <;> cases l <;> cases lw <;> cases b <;> exact ⟨rfl, rfl⟩

/-- An incoming scraped record (the data dict of run_daily_scrape): its
natural key unibet_id and its mutable payload, represented by the start
time. -/
structure RecIn where
  unibet_id : String
  race_time : RaceTime
deriving DecidableEq, Repr

/-- The setattr loop of run_daily_scrape: overwrite every mutable field of the
matched row while keeping its database id. -/
def applyFields (r : Race) (d : RecIn) : Race :=
  ⟨r.id, d.unibet_id, d.race_time⟩

/-- One iteration of the upsert loop of run_daily_scrape: look for the first
stored race with the unibet_id of the incoming record; update it in place when
found, otherwise insert a new row with the next database id. -/
def upsertOne : List Race → Nat → RecIn → List Race × Nat
  | [], nid, d => ([⟨nid, d.unibet_id, d.race_time⟩], nid + 1)
  | r :: rs, nid, d =>
      if r.unibet_id = d.unibet_id then (applyFields r d :: rs, nid)
      else (r :: (upsertOne rs nid d).1, (upsertOne rs nid d).2)

/-- The upsert loop of run_daily_scrape over all incoming records. -/
def upsertEvents : List Race → Nat → List RecIn → List Race × Nat
  | db, nid, [] => (db, nid)
  | db, nid, d :: ds => upsertEvents (upsertOne db nid d).1 (upsertOne db nid d).2 ds

/-- The stored natural keys, in table order. -/
def uids (db : List Race) : List String := db.map Race.unibet_id

/-- The stored database ids, in table order. -/
def ids (db : List Race) : List Nat := db.map Race.id

theorem upsertOne_uids (nid : Nat) (d : RecIn) :
    ∀ db : List Race, uids (upsertOne db nid d).1
      = if d.unibet_id ∈ uids db then uids db else uids db ++ [d.unibet_id]
  | [] => by simp [upsertOne, uids]
  | r :: rs => by
      by_cases h : r.unibet_id = d.unibet_id
      · have hmem : d.unibet_id ∈ uids (r :: rs) := by
          simp [uids, ← h]
        rw [if_pos hmem]
        simp only [upsertOne, if_pos h]
        simp [uids, applyFields, h]
      · have hne : ¬ d.unibet_id = r.unibet_id := fun hh => h hh.symm
        have hcons : uids (r :: rs) = r.unibet_id :: uids rs := rfl
        have hiff : (d.unibet_id ∈ uids (r :: rs)) ↔ d.unibet_id ∈ uids rs := by
          rw [hcons, List.mem_cons]
          exact or_iff_right hne
        simp only [upsertOne, if_neg h]
        have hlhs : uids (r :: (upsertOne rs nid d).1) =
            r.unibet_id :: uids (upsertOne rs nid d).1 := rfl
        by_cases h2 : d.unibet_id ∈ uids rs
        · rw [if_pos (hiff.mpr h2), hlhs, upsertOne_uids nid d rs, if_pos h2, hcons]
        · rw [if_neg (fun hh => h2 (hiff.mp hh)), hlhs, upsertOne_uids nid d rs,
            if_neg h2, hcons, List.cons_append]

theorem upsertOne_ids (nid : Nat) (d : RecIn) :
    ∀ db : List Race, ids (upsertOne db nid d).1
      = if d.unibet_id ∈ uids db then ids db else ids db ++ [nid]
  | [] => by simp [upsertOne, ids, uids]
  | r :: rs => by
      by_cases h : r.unibet_id = d.unibet_id
      · have hmem : d.unibet_id ∈ uids (r :: rs) := by
          simp [uids, ← h]
        rw [if_pos hmem]
        simp only [upsertOne, if_pos h]
        simp [ids, applyFields]
      · have hne : ¬ d.unibet_id = r.unibet_id := fun hh => h hh.symm
        have hiff : (d.unibet_id ∈ uids (r :: rs)) ↔ d.unibet_id ∈ uids rs := by
          rw [show uids (r :: rs) = r.unibet_id :: uids rs from rfl, List.mem_cons]
          exact or_iff_right hne
        simp only [upsertOne, if_neg h]
        have hlhs : ids (r :: (upsertOne rs nid d).1) =
            r.id :: ids (upsertOne rs nid d).1 := rfl
        have hcons : ids (r :: rs) = r.id :: ids rs := rfl
        by_cases h2 : d.unibet_id ∈ uids rs
        · rw [if_pos (hiff.mpr h2), hlhs, upsertOne_ids nid d rs, if_pos h2, hcons]
        · rw [if_neg (fun hh => h2 (hiff.mp hh)), hlhs, upsertOne_ids nid d rs,
            if_neg h2, hcons, List.cons_append]

theorem upsertOne_length (db : List Race) (nid : Nat) (d : RecIn) :
    (upsertOne db nid d).1.length
      = if d.unibet_id ∈ uids db then db.length else db.length + 1 := by
  have h1 : (upsertOne db nid d).1.length = (uids (upsertOne db nid d).1).length :=
    (List.length_map _ _).symm
  have h2 : (uids db).length = db.length := List.length_map _ _
  rw [h1, upsertOne_uids nid d db]
  by_cases h : d.unibet_id ∈ uids db
  · rw [if_pos h, if_pos h, h2]
  · rw [if_neg h, if_neg h, List.length_append, h2]
    rfl

theorem mem_uids_upsertOne (db : List Race) (nid : Nat) (d : RecIn) (u : String)
    (h : u ∈ uids db) : u ∈ uids (upsertOne db nid d).1 := by
  rw [upsertOne_uids nid d db]
  by_cases hm : d.unibet_id ∈ uids db
  · rwa [if_pos hm]
  · rw [if_neg hm]
    exact List.mem_append_left _ h

theorem self_mem_uids_upsertOne (db : List Race) (nid : Nat) (d : RecIn) :
    d.unibet_id ∈ uids (upsertOne db nid d).1 := by
  rw [upsertOne_uids nid d db]
  by_cases hm : d.unibet_id ∈ uids db
  · rwa [if_pos hm]
  · rw [if_neg hm]
    exact List.mem_append_right _ (List.mem_singleton_self _)

theorem mem_uids_upsertEvents (recs : List RecIn) :
    ∀ (db : List Race) (nid : Nat) (u : String),
      u ∈ uids db → u ∈ uids (upsertEvents db nid recs).1
  | db, nid, u, h => by
      cases recs with
      | nil => exact h
      | cons d ds =>
          simp only [upsertEvents]
          exact mem_uids_upsertEvents ds _ _ u (mem_uids_upsertOne db nid d u h)

theorem mem_ids_upsertEvents (recs : List RecIn) :
    ∀ (db : List Race) (nid : Nat) (i : Nat),
      i ∈ ids db → i ∈ ids (upsertEvents db nid recs).1
  | db, nid, i, h => by
      cases recs with
      | nil => exact h
      | cons d ds =>
          simp only [upsertEvents]
          refine mem_ids_upsertEvents ds _ _ i ?_
          rw [upsertOne_ids nid d db]
          by_cases hm : d.unibet_id ∈ uids db
          · rwa [if_pos hm]
          · rw [if_neg hm]
            exact List.mem_append_left _ h

theorem cover_uids_upsertEvents (recs : List RecIn) :
    ∀ (db : List Race) (nid : Nat) (d : RecIn),
      d ∈ recs → d.unibet_id ∈ uids (upsertEvents db nid recs).1 := by
  induction recs with
  | nil => intro _ _ _ h; exact absurd h (List.not_mem_nil _)
  | cons d0 ds ih =>
      intro db nid d hmem
      simp only [upsertEvents]
      rcases List.mem_cons.mp hmem with rfl | htail
      · exact mem_uids_upsertEvents ds _ _ _ (self_mem_uids_upsertOne db nid d)
      · exact ih _ _ d htail

theorem upsertEvents_preserve (recs : List RecIn) :
    ∀ (db : List Race) (nid : Nat),
      (∀ d ∈ recs, d.unibet_id ∈ uids db) →
      uids (upsertEvents db nid recs).1 = uids db
        ∧ (upsertEvents db nid recs).1.length = db.length := by
  induction recs with
  | nil => intro db nid _; exact ⟨rfl, rfl⟩
  | cons d ds ih =>
      intro db nid hall
      have hd : d.unibet_id ∈ uids db := hall d (List.mem_cons_self _ _)
      have huids : uids (upsertOne db nid d).1 = uids db := by
        rw [upsertOne_uids nid d db, if_pos hd]
      have hlen : (upsertOne db nid d).1.length = db.length := by
        rw [upsertOne_length db nid d, if_pos hd]
      simp only [upsertEvents]
      have hall' : ∀ e ∈ ds, e.unibet_id ∈ uids (upsertOne db nid d).1 := by
        intro e he
        rw [huids]
        exact hall e (List.mem_cons_of_mem _ he)
      obtain ⟨h1, h2⟩ := ih (upsertOne db nid d).1 (upsertOne db nid d).2 hall'
      exact ⟨h1.trans huids, h2.trans hlen⟩

theorem upsertEvents_nodup (recs : List RecIn) :
    ∀ (db : List Race) (nid : Nat),
      (uids db).Nodup → (uids (upsertEvents db nid recs).1).Nodup := by
  induction recs with
  | nil => intro _ _ h; exact h
  | cons d ds ih =>
      intro db nid h
      simp only [upsertEvents]
      refine ih _ _ ?_
      rw [upsertOne_uids nid d db]
      by_cases hm : d.unibet_id ∈ uids db
      · rwa [if_pos hm]
      · rw [if_neg hm]
        refine List.Nodup.append h (List.nodup_singleton _) ?_
        intro a ha hb
        rw [List.mem_singleton] at hb
        exact hm (hb ▸ ha)

/-- Claim C9: the upsert loop of run_daily_scrape is idempotent: running it a
second time with the same records leaves the persisted count unchanged; it
never creates a duplicate natural key when the table had none; it never removes
an existing row (every stored id survives, so matched rows keep their id); and
after a run the unibet_id of every incoming record is present (matched rows were
updated in place, unmatched records were inserted). -/
theorem C9_upsert_idempotent (db : List Race) (nid : Nat) (recs : List RecIn) :
    (upsertEvents (upsertEvents db nid recs).1 (upsertEvents db nid recs).2 recs).1.length
        = (upsertEvents db nid recs).1.length
      ∧ ((uids db).Nodup → (uids (upsertEvents db nid recs).1).Nodup)
      ∧ (∀ i, i ∈ ids db → i ∈ ids (upsertEvents db nid recs).1)
      ∧ (∀ d ∈ recs, d.unibet_id ∈ uids (upsertEvents db nid recs).1) := by
  refine ⟨?_, upsertEvents_nodup recs db nid,
    fun i => mem_ids_upsertEvents recs db nid i,
    fun d hd => cover_uids_upsertEvents recs db nid d hd⟩
  exact (upsertEvents_preserve recs _ _
    (fun d hd => cover_uids_upsertEvents recs db nid d hd)).2

theorem C9_witness :
    (upsertEvents
        (upsertEvents [⟨1, "a", RaceTime.aware 0⟩] 2
          [⟨"a", RaceTime.aware 5⟩, ⟨"b", RaceTime.aware 6⟩]).1
        (upsertEvents [⟨1, "a", RaceTime.aware 0⟩] 2
          [⟨"a", RaceTime.aware 5⟩, ⟨"b", RaceTime.aware 6⟩]).2
        [⟨"a", RaceTime.aware 5⟩, ⟨"b", RaceTime.aware 6⟩]).1.length
      = (upsertEvents [⟨1, "a", RaceTime.aware 0⟩] 2
          [⟨"a", RaceTime.aware 5⟩, ⟨"b", RaceTime.aware 6⟩]).1.length
      ∧ (uids (upsertEvents [⟨1, "a", RaceTime.aware 0⟩] 2
          [⟨"a", RaceTime.aware 5⟩, ⟨"b", RaceTime.aware 6⟩]).1).Nodup
      ∧ (1 : Nat) ∈ ids (upsertEvents [⟨1, "a", RaceTime.aware 0⟩] 2
          [⟨"a", RaceTime.aware 5⟩, ⟨"b", RaceTime.aware 6⟩]).1 := by
  have h := C9_upsert_idempotent [⟨1, "a", RaceTime.aware 0⟩] 2
    [⟨"a", RaceTime.aware 5⟩, ⟨"b", RaceTime.aware 6⟩]
  exact ⟨h.1, h.2.1 (by decide), h.2.2.1 1 (by decide)⟩

end HorseScraper
